import Mathlib

/-!
# MiniChain — shallow embedding and verification

A shallow embedding of the MiniChain ledger core (the `minichain` package:
`transaction.py`, `state.py`, `block.py`, `chain.py`, plus `consensus/pow.py`
and `core/contract.py`) together with theorems settling the frozen claims.

Modelling conventions:
* Python `dict` account maps become ordered association lists keyed by
  `Option String` (Python allows `None` as a dictionary key, and
  `State.apply_tx` indexes `self.accounts` with `tx.receiver`, which may be
  `None`).  Insertion order is preserved: updating an existing key rewrites it
  in place, a fresh key is appended.
* Machine integers are `Int` (Python integers are unbounded).
* SHA-256 and the `json.dumps(..., sort_keys=True)` canonical serializations
  are cryptographic/encoding primitives; the functions that use them are
  parameterized over `sha : String → String`, `serHeader : Header → String`
  and `serTx : Transaction → String`, mirroring the factoring of the source
  (`hashlib.sha256` over a canonical string).  Likewise signature
  verification of a well-formed non-coinbase signature is `sigOk`, the
  Python `ast.parse` front end is `parse`, and the sandboxed subprocess body
  of `ContractMachine.execute` is `worker` (returning `none` on timeout,
  crash, runtime error, or missing result).
* `State.copy` is `copy.deepcopy` plus re-wiring of the contract machine; on
  pure values it is the identity, so the chain functions simply reuse the
  current account map for their temporary state.
-/

/-- Account record, from `minichain/state.py` (`self.accounts` values:
`{'balance': int, 'nonce': int, 'code': str|None, 'storage': dict}`).
Storage values are modelled as integers (they are JSON-serializable values;
only their identity matters to the claims). -/
structure Account where
  balance : Int
  nonce : Int
  code : Option String
  storage : List (String × Int)
deriving DecidableEq

/-- The all-zero account created lazily by `State.get_account` /
`State.create_account`. -/
def zeroAccount : Account := ⟨0, 0, none, []⟩

/-- Python dictionary keys for the accounts map: `None` is a legal key. -/
abbrev Key := Option String

/-- Ordered account map (a Python `dict`). -/
abbrev Accounts := List (Key × Account)

/-- Dictionary lookup (`self.accounts.get(k)`). -/
def lookupAcc : Accounts → Key → Option Account
  | [], _ => none
  | (k', v) :: rest, k => if k' = k then some v else lookupAcc rest k

/-- Dictionary membership (`k in self.accounts`). -/
def memAcc (s : Accounts) (k : Key) : Bool := (lookupAcc s k).isSome

/-- Dictionary assignment `self.accounts[k] = v`: rewrite in place if the key
exists, append otherwise (Python dicts preserve insertion order). -/
def setAcc : Accounts → Key → Account → Accounts
  | [], k, v => [(k, v)]
  | (k', v') :: rest, k, v =>
      if k' = k then (k', v) :: rest else (k', v') :: setAcc rest k v

/-- In-place mutation of the account stored under an existing key
(`acc['balance'] -= amount` and friends); no-op when the key is absent. -/
def updAcc : Accounts → Key → (Account → Account) → Accounts
  | [], _, _ => []
  | (k', v) :: rest, k, f =>
      if k' = k then (k', f v) :: rest else (k', v) :: updAcc rest k f

/-- Source `State.get_account`: lazily create the account with all-zero defaults,
return it together with the (possibly grown) map. -/
def getAccount (s : Accounts) (k : Key) : Account × Accounts :=
  match lookupAcc s k with
  | some a => (a, s)
  | none => (zeroAccount, s ++ [(k, zeroAccount)])

/-- Source `State.create_account(address, balance)`: create only if absent. -/
def createAccount (s : Accounts) (k : Key) (balance : Int) : Accounts :=
  if memAcc s k then s else s ++ [(k, { zeroAccount with balance := balance })]

/-- Source `State.get_balance` (0 default). -/
def getBalance (s : Accounts) (k : Key) : Int :=
  ((lookupAcc s k).getD zeroAccount).balance

/-- Source `State.get_nonce` (0 default). -/
def getNonce (s : Accounts) (k : Key) : Int :=
  ((lookupAcc s k).getD zeroAccount).nonce

/-- Source `State.create_contract`: unconditional assignment of a fresh contract
account; returns the address in the source, here the new map. -/
def createContract (s : Accounts) (k : Key) (code : Option String)
    (initialBalance : Int) : Accounts :=
  setAcc s k ⟨initialBalance, 0, code, []⟩

/-- Transaction record, from `minichain/transaction.py`. -/
structure Transaction where
  sender : String
  receiver : Option String
  amount : Int
  nonce : Int
  data : Option String
  signature : Option String
  timestamp : Int
deriving DecidableEq

/-- Source `COINBASE_SENDER = "0" * 64`. -/
def COINBASE_SENDER : String := String.mk (List.replicate 64 '0')

/-- Python truthiness of an optional string (`None` and `""` are falsy). -/
def strTruthy : Option String → Bool
  | none => false
  | some s => s ≠ ""

/-- Source `Transaction.verify()`: coinbase transactions verify unconditionally; a
missing/empty signature fails; otherwise the cryptographic check `sigOk`
decides (the source returns `False` on any malformed key or signature). -/
def txVerify (sigOk : Transaction → Bool) (tx : Transaction) : Bool :=
  if tx.sender = COINBASE_SENDER then true
  else if ¬ strTruthy tx.signature then false
  else sigOk tx

/-- Result of `State.apply_transaction`: a contract address (deployment),
`True`, or `False`. -/
inductive TxResult where
  | ok
  | addr (a : String)
  | fail
deriving DecidableEq

/-- Python truthiness of an `apply_transaction` result (`if not result`):
`True` is truthy, `False` falsy, a string is truthy iff non-empty. -/
def TxResult.truthy : TxResult → Bool
  | .ok => true
  | .addr a => a ≠ ""
  | .fail => false

/-!
## Contract sandbox (`core/contract.py`; `minichain/contract.py` — absent from
the source tree — is the same module, as witnessed by `minichain/state.py`
using the identical `ContractMachine` interface)
-/

/-- Python abstract-syntax trees, as far as `_validate_code_ast` inspects
them.  List-shaped children (module bodies, call arguments, f-string parts)
are encoded with the binary `seq`/`nil` spine; the extra spine nodes are
never forbidden, so `ast.walk` over the encoded tree sees the same set of
interesting nodes as the source. -/
inductive PyAst where
  /-- Node `ast.Attribute` — attribute access `value.attr`. -/
  | attribute (value : PyAst) (attr : String)
  /-- Node `ast.Name` — an identifier. -/
  | name (id : String)
  /-- Node `ast.Import` / `ast.ImportFrom` — module-import statements. -/
  | impStmt
  /-- Node `ast.Call` — `func(arg)`. -/
  | call (func : PyAst) (arg : PyAst)
  /-- Node `ast.Constant` holding a string literal. -/
  | constStr (s : String)
  /-- Node `ast.Constant` holding a non-string value. -/
  | constOther
  /-- Node `ast.JoinedStr` — an f-string. -/
  | joinedStr (body : PyAst)
  /-- Any other node with two children (assignments, binary ops, …). -/
  | seq (a b : PyAst)
  /-- A leaf node of no further interest. -/
  | nil
deriving DecidableEq

/-- Substring test used by `"__" in node.value`. -/
def strContains (s pat : String) : Bool :=
  (s.toList.tails).any (fun t => pat.toList.isPrefixOf t)

/-- The per-node rejection test inside `ContractMachine._validate_code_ast`:
double-underscore attribute access or names, import statements, `type` /
`getattr` / `setattr` / `delattr` calls, string literals containing `__`,
and f-strings. -/
def forbiddenNode : PyAst → Bool
  | .attribute _ attr => attr.startsWith "__"
  | .name id => id.startsWith "__"
  | .impStmt => true
  | .call f _ =>
      match f with
      | .name id => id = "type" ∨ id = "getattr" ∨ id = "setattr" ∨ id = "delattr"
      | _ => false
  | .constStr s => strContains s "__"
  | .joinedStr _ => true
  | _ => false

/-- Source `ast.walk`: every node of the tree (order irrelevant to the check). -/
def PyAst.walk : PyAst → List PyAst
  | t@(.attribute v _) => t :: v.walk
  | t@(.call f a) => t :: (f.walk ++ a.walk)
  | t@(.joinedStr b) => t :: b.walk
  | t@(.seq a b) => t :: (a.walk ++ b.walk)
  | t => [t]

/-- Source `_validate_code_ast` on a successfully parsed tree: accept iff no walked
node is forbidden. -/
def astOk (t : PyAst) : Bool := t.walk.all (fun n => ¬ forbiddenNode n)

/-- Source `_validate_code_ast(code)` including the `ast.parse` front end: a
`SyntaxError` (modelled by `parse code = none`) is rejected. -/
def validateCodeAst (parse : String → Option PyAst) (code : String) : Bool :=
  match parse code with
  | none => false
  | some t => astOk t

/-- The `msg` execution context handed to contract code. -/
structure Msg where
  sender : String
  value : Int
  data : String
deriving DecidableEq

/-- Outcome of the sandboxed subprocess (`_safe_exec_worker` plus the
timeout/queue plumbing): `none` models a timeout kill, a crash with no
result, or an error status; `some st` is a successful run returning the
updated storage.  Modelled storage values are JSON-serializable by
construction, so the `json.dumps(result["storage"])` check always passes. -/
abbrev Worker := PyAst → List (String × Int) → Msg → Option (List (String × Int))

/-- Source `State.update_contract_storage`: replace the storage of an existing
account (the source raises `KeyError` when absent; all call sites have just
ensured presence). -/
def updateContractStorage (s : Accounts) (k : Key)
    (st : List (String × Int)) : Accounts :=
  updAcc s k (fun a => { a with storage := st })

/-- Source `ContractMachine.execute`, from `core/contract.py`: look the contract
account up (`get_account` creates it lazily if absent), reject when it has no
code, statically validate the code's syntax tree, then run the worker
subprocess; commit the returned storage only on success. -/
def cmExecute (parse : String → Option PyAst) (worker : Worker)
    (s : Accounts) (contractAddr : Key) (senderAddr : String)
    (payload : String) (amount : Int) : Bool × Accounts :=
  let (account, s1) := getAccount s contractAddr
  -- `if not account:` is never taken: `get_account` returns a non-empty dict
  if ¬ strTruthy account.code then (false, s1)
  else
    match account.code with
    | none => (false, s1)
    | some code =>
      if ¬ validateCodeAst parse code then (false, s1)
      else
        match worker ((parse code).getD .nil) account.storage
            ⟨senderAddr, amount, payload⟩ with
        | none => (false, s1)
        | some st => (true, updateContractStorage s1 contractAddr st)

/-!
## The transaction-application state machine (`minichain/state.py`)
-/

/-- Source `State.verify_transaction_logic`: signature, then balance, then nonce.
`get_account` lazily creates the sender, so the returned map may have grown
even when the answer is `false`. -/
def verifyTransactionLogic (sigOk : Transaction → Bool) (s : Accounts)
    (tx : Transaction) : Bool × Accounts :=
  if ¬ txVerify sigOk tx then (false, s)
  else
    let (senderAcc, s1) := getAccount s (some tx.sender)
    if senderAcc.balance < tx.amount then (false, s1)
    else if senderAcc.nonce ≠ tx.nonce then (false, s1)
    else (true, s1)

/-- Source `State.apply_transaction`: verify, debit the sender and bump its nonce,
then dispatch on the three branches (deploy / contract call / transfer),
rolling the debit and nonce back on every failure path. -/
def applyTransaction (sigOk : Transaction → Bool)
    (deriveAddr : String → Int → String) (parse : String → Option PyAst)
    (worker : Worker) (s : Accounts) (tx : Transaction) :
    TxResult × Accounts :=
  match verifyTransactionLogic sigOk s tx with
  | (false, s1) => (.fail, s1)
  | (_, s1) =>
    let s2 := updAcc s1 (some tx.sender)
      (fun a => { a with balance := a.balance - tx.amount, nonce := a.nonce + 1 })
    if tx.receiver = none ∨ tx.receiver = some "" then
      -- LOGIC BRANCH 1: contract deployment
      let contractAddr := deriveAddr tx.sender tx.nonce
      let existing := lookupAcc s2 (some contractAddr)
      if strTruthy ((existing.getD zeroAccount).code) ∧ existing.isSome then
        let s3 := updAcc s2 (some tx.sender)
          (fun a => { a with balance := a.balance + tx.amount, nonce := a.nonce - 1 })
        (.fail, s3)
      else
        (.addr contractAddr, createContract s2 (some contractAddr) tx.data tx.amount)
    else if strTruthy tx.data then
      -- LOGIC BRANCH 2: contract call
      match lookupAcc s2 tx.receiver with
      | none =>
        let s3 := updAcc s2 (some tx.sender)
          (fun a => { a with balance := a.balance + tx.amount, nonce := a.nonce - 1 })
        (.fail, s3)
      | some receiverAcc =>
        if ¬ strTruthy receiverAcc.code then
          let s3 := updAcc s2 (some tx.sender)
            (fun a => { a with balance := a.balance + tx.amount, nonce := a.nonce - 1 })
          (.fail, s3)
        else
          let s3 := updAcc s2 tx.receiver
            (fun a => { a with balance := a.balance + tx.amount })
          match cmExecute parse worker s3 tx.receiver tx.sender
              (tx.data.getD "") tx.amount with
          | (true, s4) => (.ok, s4)
          | (false, s4) =>
            let s5 := updAcc s4 tx.receiver
              (fun a => { a with balance := a.balance - tx.amount })
            let s6 := updAcc s5 (some tx.sender)
              (fun a => { a with balance := a.balance + tx.amount, nonce := a.nonce - 1 })
            (.fail, s6)
    else
      -- LOGIC BRANCH 3: regular transfer
      let (_, s3) := getAccount s2 tx.receiver
      (.ok, updAcc s3 tx.receiver (fun a => { a with balance := a.balance + tx.amount }))

/-- Source `State.validate_and_apply`: reject a negative amount (Python also checks
`isinstance(tx.amount, int)`, which always holds here), then delegate to
`apply_transaction`. -/
def validateAndApply (sigOk : Transaction → Bool)
    (deriveAddr : String → Int → String) (parse : String → Option PyAst)
    (worker : Worker) (s : Accounts) (tx : Transaction) :
    TxResult × Accounts :=
  if tx.amount < 0 then (.fail, s)
  else applyTransaction sigOk deriveAddr parse worker s tx

/-- Source `State.apply_tx` (the Minichain_v0-compatible entry point).  Returns
`self` on success; failure means a raised `ValueError`, modelled as a `false`
first component paired with the map as it stands when the exception leaves
the method. -/
def applyTx (sigOk : Transaction → Bool)
    (deriveAddr : String → Int → String) (parse : String → Option PyAst)
    (worker : Worker) (s : Accounts) (tx : Transaction) : Bool × Accounts :=
  if tx.sender = COINBASE_SENDER then
    -- coinbase: create/credit the receiver and return
    let s1 := createAccount s tx.receiver 0
    (true, updAcc s1 tx.receiver (fun a => { a with balance := a.balance + tx.amount }))
  else if ¬ txVerify sigOk tx then (false, s)
  else if ¬ memAcc s (some tx.sender) then (false, s)
  else if tx.nonce ≠ getNonce s (some tx.sender) then (false, s)
  else if getBalance s (some tx.sender) < tx.amount then (false, s)
  else
    let s1 := updAcc s (some tx.sender)
      (fun a => { a with balance := a.balance - tx.amount, nonce := a.nonce + 1 })
    if tx.receiver = none ∨ tx.receiver = some "" then
      if strTruthy tx.data then
        let contractAddr := deriveAddr tx.sender tx.nonce
        (true, createContract s1 (some contractAddr) tx.data tx.amount)
      else (true, s1)
    else
      let s2 := if memAcc s1 tx.receiver then s1 else createAccount s1 tx.receiver 0
      if strTruthy tx.data ∧
          strTruthy (((lookupAcc s2 tx.receiver).getD zeroAccount).code) then
        let s3 := updAcc s2 tx.receiver
          (fun a => { a with balance := a.balance + tx.amount })
        match cmExecute parse worker s3 tx.receiver tx.sender
            (tx.data.getD "") tx.amount with
        | (true, s4) => (true, s4)
        | (false, s4) =>
          let s5 := updAcc s4 tx.receiver
            (fun a => { a with balance := a.balance - tx.amount })
          let s6 := updAcc s5 (some tx.sender)
            (fun a => { a with balance := a.balance + tx.amount, nonce := a.nonce - 1 })
          (false, s6)
      else
        (true, updAcc s2 tx.receiver (fun a => { a with balance := a.balance + tx.amount }))

/-!
## Blocks and the Merkle root (`minichain/block.py`; `core/block.py` carries
the identical `_calculate_merkle_root`)
-/

/-- One level of the Merkle loop: duplicate the last hash when the level has
odd length, then hash adjacent pairs. -/
def merklePair (sha : String → String) : List String → List String
  | h1 :: h2 :: rest => sha (h1 ++ h2) :: merklePair sha rest
  | l => l.map (fun h => sha (h ++ h))

/-- Pad an odd-length level by duplicating its last entry
(`tx_hashes.append(tx_hashes[-1])`). -/
def merklePad (hs : List String) : List String :=
  if hs.length % 2 ≠ 0 then hs ++ [hs.getLast!] else hs

theorem merklePair_length (sha : String → String) (hs : List String) :
    (merklePair sha hs).length = (hs.length + 1) / 2 := by
  induction hs using merklePair.induct sha with
  | case1 h1 h2 rest ih => simpa [merklePair] using by omega
  | case2 l h => cases l with
    | nil => simp [merklePair]
    | cons a t =>
      cases t with
      | nil => simp [merklePair]
      | cons b u => exact absurd rfl (h a b u)

theorem merklePad_length (hs : List String) :
    (merklePad hs).length = if hs.length % 2 ≠ 0 then hs.length + 1 else hs.length := by
  unfold merklePad
  split <;> simp_all

/-- The `while len(tx_hashes) > 1` loop of `_calculate_merkle_root`. -/
def merkleLoop (sha : String → String) (hs : List String) : String :=
  if _h : hs.length ≤ 1 then hs.headD ""
  else merkleLoop sha (merklePair sha (merklePad hs))
termination_by hs.length
decreasing_by
  have hp := merklePair_length sha (merklePad hs)
  have hq := merklePad_length hs
  rw [hq] at hp
  by_cases hpar : hs.length % 2 ≠ 0
  · rw [if_pos hpar] at hp; omega
  · rw [if_neg hpar] at hp; omega

/-- Source `_calculate_merkle_root`: `none` for an empty list, otherwise hash each
transaction's canonical serialization (`sha (serTx tx)` models
`_sha256(json.dumps(tx.to_dict(), sort_keys=True))`) and reduce. -/
def merkleRoot (sha : String → String) (serTx : Transaction → String)
    (txs : List Transaction) : Option String :=
  match txs with
  | [] => none
  | _ => some (merkleLoop sha (txs.map (fun tx => sha (serTx tx))))

/-- Block-header fields, the input of `calculate_hash` /
`Block.to_header_dict`. -/
structure Header where
  index : Int
  previous_hash : String
  merkle_root : Option String
  timestamp : Int
  difficulty : Option Int
  nonce : Int
deriving DecidableEq

/-- A `Block` object (`minichain/block.py`): `merkle_root` is computed from
the transactions by the constructor, `nonce` starts at 0, `hash` at `None`
until mining or assignment fixes it. -/
structure Block where
  index : Int
  previous_hash : String
  transactions : List Transaction
  timestamp : Int
  difficulty : Option Int
  nonce : Int
  merkle_root : Option String
  hash : Option String
deriving DecidableEq

/-- Source `Block.to_header_dict()`. -/
def Block.header (b : Block) : Header :=
  ⟨b.index, b.previous_hash, b.merkle_root, b.timestamp, b.difficulty, b.nonce⟩

/-- Source `calculate_hash` (`consensus/pow.py`, imported by `minichain/chain.py` as
`.pow.calculate_hash`): SHA-256 of the canonical header serialization. -/
def calculateHash (sha : String → String) (serHeader : Header → String)
    (hd : Header) : String :=
  sha (serHeader hd)

/-- Source `"0" * d`. -/
def zeroRun (d : Int) : String := String.mk (List.replicate d.toNat '0')

/-- Number of leading `'0'` hex characters of a hash. -/
def leadingZeroHex (h : String) : Nat := (h.toList.takeWhile (· = '0')).length

/-- Python's `s.startswith(pre)`: a string is a sequence of characters, so
this is the character-list prefix test. -/
def strStarts (s pre : String) : Bool := pre.toList.isPrefixOf s.toList

/-- The proof-of-work acceptance test of `add_block` / `validate_chain`:
`difficulty = block.difficulty or 0`, and for a positive difficulty the hash
must start with that many zero characters. -/
def powOk (h : String) (difficulty : Option Int) : Bool :=
  let d := difficulty.getD 0
  if 0 < d then strStarts h (zeroRun d) else true

/-!
## The chain (`minichain/chain.py`)
-/

/-- Source `GENESIS_HASH = "0" * 64`. -/
def GENESIS_HASH : String := String.mk (List.replicate 64 '0')

/-- The `Blockchain` object: the block list plus the committed `State`. -/
structure Blockchain where
  chain : List Block
  state : Accounts
deriving DecidableEq

/-- The genesis block built by `Blockchain._create_genesis_block`:
`Block(index=0, previous_hash="0", transactions=[])` (its constructor
timestamp is the wall clock, a parameter here; `merkle_root` of no
transactions is `None`) with `hash` forced to `GENESIS_HASH`. -/
def genesisBlock (ts : Int) : Block :=
  ⟨0, "0", [], ts, none, 0, none, some GENESIS_HASH⟩

/-- Source `Blockchain.__init__`. -/
def mkBlockchain (ts : Int) : Blockchain := ⟨[genesisBlock ts], []⟩

/-- The transaction loop shared by `add_block`, `validate_chain` and
`replace_chain`: apply `validate_and_apply` in order, `none` as soon as one
result is falsy. -/
def applyTxs (sigOk : Transaction → Bool) (deriveAddr : String → Int → String)
    (parse : String → Option PyAst) (worker : Worker) :
    Accounts → List Transaction → Option Accounts
  | s, [] => some s
  | s, tx :: rest =>
    match validateAndApply sigOk deriveAddr parse worker s tx with
    | (r, s') => if r.truthy then applyTxs sigOk deriveAddr parse worker s' rest else none

/-- Source `Blockchain.add_block`: previous-hash linkage, index linkage, header-hash
recomputation, proof-of-work, then all-or-nothing transaction validation on a
copy of the live state. -/
def addBlock (sha : String → String) (serHeader : Header → String)
    (sigOk : Transaction → Bool) (deriveAddr : String → Int → String)
    (parse : String → Option PyAst) (worker : Worker)
    (bc : Blockchain) (b : Block) : Bool × Blockchain :=
  match bc.chain.getLast? with
  | none => (false, bc)   -- unreachable: the constructor appends genesis
  | some last =>
    if some b.previous_hash ≠ last.hash then (false, bc)
    else if b.index ≠ last.index + 1 then (false, bc)
    else
      let computed := calculateHash sha serHeader b.header
      if b.hash ≠ some computed then (false, bc)
      else if ¬ powOk computed b.difficulty then (false, bc)
      else
        match applyTxs sigOk deriveAddr parse worker bc.state b.transactions with
        | none => (false, bc)
        | some st => (true, ⟨bc.chain ++ [b], st⟩)

/-- A block dictionary as received from a peer (the wire form produced by
`Block.to_dict()`), consumed by `validate_chain` / `replace_chain`. -/
structure BlockData where
  index : Int
  previous_hash : String
  timestamp : Int
  difficulty : Option Int
  nonce : Int
  transactions : List Transaction
  hash : Option String
deriving DecidableEq

/-- Source `Transaction(**tx)` as performed by `validate_chain`/`replace_chain` on a
wire transaction dictionary: the constructor multiplies the supplied
(already-millisecond) timestamp by 1000 again
(`round(timestamp * 1000)`), so the reconstructed transaction's timestamp is
1000 times the wire value.  The wire dictionary has the same fields as
`Transaction`, so the argument is a `Transaction` whose `timestamp` is the
wire value. -/
def reconstructTx (td : Transaction) : Transaction :=
  { td with timestamp := td.timestamp * 1000 }

/-- The `Block(...)` reconstruction performed on each non-genesis
`block_data`: the constructor recomputes `merkle_root` from the reconstructed
transactions, then `validate_chain`/`replace_chain` restore `nonce` (and
`replace_chain` the recorded `hash`). -/
def blockOfData (sha : String → String) (serTx : Transaction → String)
    (bd : BlockData) : Block :=
  let txs := bd.transactions.map reconstructTx
  ⟨bd.index, bd.previous_hash, txs, bd.timestamp, bd.difficulty, bd.nonce,
    merkleRoot sha serTx txs, bd.hash⟩

/-- The per-block body of `validate_chain`'s loop (`for i in range(1, ...)`)
with the validation state threaded through: index linkage, previous-hash
linkage, recomputed header hash, proof-of-work, transactions. -/
def validateBlocks (sha : String → String) (serHeader : Header → String)
    (serTx : Transaction → String) (sigOk : Transaction → Bool)
    (deriveAddr : String → Int → String) (parse : String → Option PyAst)
    (worker : Worker) :
    BlockData → Accounts → List BlockData → Bool
  | _, _, [] => true
  | prev, st, bd :: rest =>
    if bd.index ≠ prev.index + 1 then false
    else if some bd.previous_hash ≠ prev.hash then false
    else
      let blk := blockOfData sha serTx bd
      let computed := calculateHash sha serHeader blk.header
      if bd.hash ≠ some computed then false
      else if ¬ powOk computed bd.difficulty then false
      else
        match applyTxs sigOk deriveAddr parse worker st blk.transactions with
        | none => false
        | some st' =>
          validateBlocks sha serHeader serTx sigOk deriveAddr parse worker bd st' rest

/-- Source `Blockchain.validate_chain`: non-empty, genesis hash and index fixed,
then every subsequent block checked against a fresh state. -/
def validateChain (sha : String → String) (serHeader : Header → String)
    (serTx : Transaction → String) (sigOk : Transaction → Bool)
    (deriveAddr : String → Int → String) (parse : String → Option PyAst)
    (worker : Worker) (cd : List BlockData) : Bool :=
  match cd with
  | [] => false
  | g :: rest =>
    if g.hash ≠ some GENESIS_HASH then false
    else if g.index ≠ 0 then false
    else validateBlocks sha serHeader serTx sigOk deriveAddr parse worker g [] rest

/-- The rebuild loop of `replace_chain`: reconstruct each non-genesis block,
reapply its transactions to the fresh state, fail if any application is
falsy. -/
def rebuildBlocks (sha : String → String) (serTx : Transaction → String)
    (sigOk : Transaction → Bool) (deriveAddr : String → Int → String)
    (parse : String → Option PyAst) (worker : Worker) :
    Accounts → List BlockData → Option (List Block × Accounts)
  | st, [] => some ([], st)
  | st, bd :: rest =>
    let blk := blockOfData sha serTx bd
    match applyTxs sigOk deriveAddr parse worker st blk.transactions with
    | none => none
    | some st' =>
      match rebuildBlocks sha serTx sigOk deriveAddr parse worker st' rest with
      | none => none
      | some (bs, stf) => some (blk :: bs, stf)

/-- Source `Blockchain.replace_chain`: reject a strictly shorter candidate; for an
equal-length candidate return the validation verdict without replacing
anything ("consider it a successful sync"); for a strictly longer candidate
validate, then rebuild chain and state from scratch and swap them in
(`nowTs` is the wall-clock timestamp of the freshly constructed genesis
block). -/
def replaceChain (sha : String → String) (serHeader : Header → String)
    (serTx : Transaction → String) (sigOk : Transaction → Bool)
    (deriveAddr : String → Int → String) (parse : String → Option PyAst)
    (worker : Worker) (nowTs : Int) (bc : Blockchain) (cd : List BlockData) :
    Bool × Blockchain :=
  if cd.length < bc.chain.length then (false, bc)
  else if cd.length = bc.chain.length then
    (validateChain sha serHeader serTx sigOk deriveAddr parse worker cd, bc)
  else if ¬ validateChain sha serHeader serTx sigOk deriveAddr parse worker cd then
    (false, bc)
  else
    match rebuildBlocks sha serTx sigOk deriveAddr parse worker [] cd.tail with
    | none => (false, bc)
    | some (bs, stf) => (true, ⟨genesisBlock nowTs :: bs, stf⟩)

/-!
## Proof-of-work mining (`consensus/pow.py`)
-/

/-- The two ways `mine_block` can raise: `ValueError` for a non-positive
difficulty, `MiningExceededError` for the attempt cap, the timeout, and the
cancellation signal. -/
inductive MineOutcome where
  | success
  | valueError
  | exceeded
deriving DecidableEq

/-- The nonce-search loop of `mine_block`, starting at candidate `n`.
`timeoutAt n` models `timeout_seconds is not None and monotonic() - start >
timeout_seconds` observed at attempt `n`; `cancelAt n h` models the progress
callback returning `False` for nonce `n` and hash `h`.  The loop checks the
attempt cap, then the timeout, then hashes the header with the candidate
nonce, accepts on a difficulty hit, and otherwise consults the cancellation
callback before moving on. -/
def mineFrom (sha : String → String) (serHeader : Header → String)
    (hd : Header) (difficulty : Int) (maxNonce : Nat)
    (timeoutAt : Nat → Bool) (cancelAt : Nat → String → Bool)
    (n : Nat) : Option (Nat × String) :=
  if maxNonce ≤ n then none
  else if timeoutAt n then none
  else
    let h := calculateHash sha serHeader { hd with nonce := (n : Int) }
    if strStarts h (zeroRun difficulty) then some (n, h)
    else if cancelAt n h then none
    else mineFrom sha serHeader hd difficulty maxNonce timeoutAt cancelAt (n + 1)
termination_by maxNonce - n
decreasing_by omega

/-- Source `mine_block(block, difficulty, max_nonce, timeout_seconds, ...,
progress_callback)`: reject a non-positive difficulty with `ValueError`;
otherwise run the nonce search from zero on a header dictionary built once
from the block; only on success assign `block.nonce` and `block.hash`.  The
returned block is the caller's block after the call, so every failure path
returns it untouched. -/
def mineBlock (sha : String → String) (serHeader : Header → String)
    (b : Block) (difficulty : Int) (maxNonce : Nat)
    (timeoutAt : Nat → Bool) (cancelAt : Nat → String → Bool) :
    MineOutcome × Block :=
  if difficulty ≤ 0 then (.valueError, b)
  else
    match mineFrom sha serHeader b.header difficulty maxNonce timeoutAt cancelAt 0 with
    | some (n, h) => (.success, { b with nonce := (n : Int), hash := some h })
    | none => (.exceeded, b)

/-!
## Basic lemmas about the account map
-/

theorem lookupAcc_updAcc_self (s : Accounts) (k : Key) (f : Account → Account) :
    lookupAcc (updAcc s k f) k = (lookupAcc s k).map f := by
  induction s with
  | nil => simp [lookupAcc, updAcc]
  | cons p rest ih =>
    obtain ⟨k', v⟩ := p
    by_cases h : k' = k <;> simp [lookupAcc, updAcc, h, ih]

theorem lookupAcc_updAcc_ne (s : Accounts) (k k' : Key) (f : Account → Account)
    (h : k' ≠ k) : lookupAcc (updAcc s k f) k' = lookupAcc s k' := by
  induction s with
  | nil => simp [lookupAcc, updAcc]
  | cons p rest ih =>
    obtain ⟨k0, v⟩ := p
    by_cases h0 : k0 = k
    · subst h0
      simp [lookupAcc, updAcc, Ne.symm h]
    · simp only [updAcc, if_neg h0, lookupAcc]
      by_cases h1 : k0 = k' <;> simp [h1, ih]

theorem lookupAcc_setAcc_self (s : Accounts) (k : Key) (v : Account) :
    lookupAcc (setAcc s k v) k = some v := by
  induction s with
  | nil => simp [lookupAcc, setAcc]
  | cons p rest ih =>
    obtain ⟨k0, v0⟩ := p
    by_cases h : k0 = k <;> simp [lookupAcc, setAcc, h, ih]

theorem lookupAcc_setAcc_ne (s : Accounts) (k k' : Key) (v : Account)
    (h : k' ≠ k) : lookupAcc (setAcc s k v) k' = lookupAcc s k' := by
  induction s with
  | nil => simp [lookupAcc, setAcc, Ne.symm h]
  | cons p rest ih =>
    obtain ⟨k0, v0⟩ := p
    by_cases h0 : k0 = k
    · subst h0
      simp [lookupAcc, setAcc, Ne.symm h]
    · simp only [setAcc, if_neg h0, lookupAcc]
      by_cases h1 : k0 = k' <;> simp [h1, ih]

theorem lookupAcc_append (s t : Accounts) (k : Key) :
    lookupAcc (s ++ t) k =
      match lookupAcc s k with
      | some v => some v
      | none => lookupAcc t k := by
  induction s with
  | nil => simp [lookupAcc]
  | cons p rest ih =>
    obtain ⟨k0, v0⟩ := p
    by_cases h : k0 = k <;> simp [lookupAcc, h, ih]

theorem lookupAcc_append_some (s t : Accounts) (k : Key) (a : Account)
    (h : lookupAcc s k = some a) : lookupAcc (s ++ t) k = some a := by
  rw [lookupAcc_append, h]

theorem lookupAcc_append_none (s t : Accounts) (k : Key)
    (h : lookupAcc s k = none) : lookupAcc (s ++ t) k = lookupAcc t k := by
  rw [lookupAcc_append, h]

theorem updAcc_congr (s : Accounts) (k : Key) (f g : Account → Account)
    (h : ∀ a, f a = g a) : updAcc s k f = updAcc s k g := by
  induction s with
  | nil => simp [updAcc]
  | cons p rest ih =>
    obtain ⟨k0, v0⟩ := p
    by_cases h0 : k0 = k <;> simp [updAcc, h0, h, ih]

theorem updAcc_id (s : Accounts) (k : Key) :
    updAcc s k (fun a => a) = s := by
  induction s with
  | nil => simp [updAcc]
  | cons p rest ih =>
    obtain ⟨k0, v0⟩ := p
    by_cases h0 : k0 = k <;> simp [updAcc, h0, ih]

theorem updAcc_updAcc (s : Accounts) (k : Key) (f g : Account → Account) :
    updAcc (updAcc s k f) k g = updAcc s k (fun a => g (f a)) := by
  induction s with
  | nil => simp [updAcc]
  | cons p rest ih =>
    obtain ⟨k0, v0⟩ := p
    by_cases h0 : k0 = k <;> simp [updAcc, h0, ih]

theorem getAccount_present (s : Accounts) (k : Key) (a : Account)
    (h : lookupAcc s k = some a) : getAccount s k = (a, s) := by
  simp [getAccount, h]

theorem getAccount_absent (s : Accounts) (k : Key)
    (h : lookupAcc s k = none) :
    getAccount s k = (zeroAccount, s ++ [(k, zeroAccount)]) := by
  simp [getAccount, h]

/-!
## Claim C8 — Merkle root
-/

theorem merkleLoop_single (sha : String → String) (h : String) :
    merkleLoop sha [h] = h := by
  unfold merkleLoop; simp

theorem merkleLoop_pair (sha : String → String) (h1 h2 : String) :
    merkleLoop sha [h1, h2] = sha (h1 ++ h2) := by
  rw [merkleLoop]
  simp [merklePad, merklePair, merkleLoop_single]

theorem merkleLoop_triple (sha : String → String) (h1 h2 h3 : String) :
    merkleLoop sha [h1, h2, h3] = sha (sha (h1 ++ h2) ++ sha (h3 ++ h3)) := by
  rw [merkleLoop]
  simp only [List.length_cons, List.length_nil]
  norm_num
  rw [show merklePad [h1, h2, h3] = [h1, h2, h3, h3] by
    simp [merklePad]; rfl]
  simp [merklePair, merkleLoop_pair]

/-- C8: the Merkle root of a transaction list hashes each transaction's
canonical serialization and reduces by pairwise hashing, duplicating the last
hash at odd levels; an empty list yields an absent root, a single transaction
yields that transaction's own (canonical-serialization) hash, and three
transactions yield `H(H(h1 ++ h2) ++ H(h3 ++ h3))`. -/
theorem merkle_root_cases (sha : String → String) (serTx : Transaction → String)
    (t a b c : Transaction) :
    merkleRoot sha serTx [] = none ∧
    merkleRoot sha serTx [t] = some (sha (serTx t)) ∧
    merkleRoot sha serTx [a, b, c] =
      some (sha (sha (sha (serTx a) ++ sha (serTx b)) ++
            sha (sha (serTx c) ++ sha (serTx c)))) := by
  refine ⟨rfl, ?_, ?_⟩
  · simp [merkleRoot, merkleLoop_single]
  · simp [merkleRoot, merkleLoop_triple]

/-!
## Claim C7 — static sandbox rejection
-/

/-- C7: if the contract account's code parses to a syntax tree containing a
statically forbidden construct (import statement, double-underscore attribute
/ name / string literal, direct `type`/`getattr`/`setattr`/`delattr` call, or
f-string), `ContractMachine.execute` fails for every possible sandbox worker
— so the code is never executed — and the whole account map (in particular
the contract's storage) is exactly unchanged. -/
theorem contract_machine_static_reject
    (parse : String → Option PyAst) (worker : Worker) (s : Accounts) (k : Key)
    (acc : Account) (code : String) (t : PyAst)
    (sender payload : String) (amount : Int)
    (hlk : lookupAcc s k = some acc) (hcode : acc.code = some code)
    (hparse : parse code = some t) (hforb : t.walk.any forbiddenNode = true) :
    cmExecute parse worker s k sender payload amount = (false, s) := by
  have hok : astOk t = false := by
    rcases List.any_eq_true.mp hforb with ⟨n, hn, hfn⟩
    simp only [astOk]
    rw [List.all_eq_false]
    exact ⟨n, hn, by simp [hfn]⟩
  by_cases hempty : code = ""
  · subst hempty
    simp [cmExecute, getAccount_present s k acc hlk, hcode, strTruthy]
  · simp [cmExecute, getAccount_present s k acc hlk, hcode, strTruthy, hempty,
      validateCodeAst, hparse, hok]

/-- Concrete contract state for the C7 witness: a deployed contract whose
code is a bare import statement. -/
def importContractState : Accounts :=
  [(some "c", ⟨0, 0, some "import os", [⟨"k", 7⟩]⟩)]

/-- A parse oracle mapping the witness code to its (forbidden) tree. -/
def importParse : String → Option PyAst :=
  fun c => if c = "import os" then some .impStmt else none

/-- A worker that would gladly return new storage — it must never run. -/
def happyWorker : Worker := fun _ _ _ => some [⟨"k", 99⟩]

theorem contract_machine_static_reject_witness :
    cmExecute importParse happyWorker importContractState (some "c")
      "alice" "payload" 5 = (false, importContractState) :=
  contract_machine_static_reject importParse happyWorker importContractState
    (some "c") ⟨0, 0, some "import os", [⟨"k", 7⟩]⟩ "import os" .impStmt
    "alice" "payload" 5 (by decide) rfl (by decide) (by decide)

/-!
## Concrete oracles for witnesses and counterexamples
-/

/-- A signature oracle that accepts every well-formed signature. -/
def sigOkAll : Transaction → Bool := fun _ => true

/-- A derived-address oracle returning a fixed fresh address. -/
def deriveAddrC : String → Int → String := fun _ _ => "ca"

/-- A parse oracle for states whose contracts are never consulted. -/
def parseNone : String → Option PyAst := fun _ => none

/-- A worker oracle that never succeeds (never consulted in the cases it is
used for). -/
def workerNone : Worker := fun _ _ _ => none

/-!
## Claim C3 — coinbase transactions
-/

/-- A coinbase transaction: all-zero sender, unsigned, paying 50 to `bob`. -/
def coinbaseTx : Transaction := ⟨COINBASE_SENDER, some "bob", 50, 0, none, none, 0⟩

/-- C3 counterexample: `State.apply_transaction` has no coinbase branch.  On
an empty state the coinbase sender's lazily created account has balance 0, so
the balance check fails: the result is falsy and the receiver is never
credited — the claim predicts success and a credit of 50. -/
theorem apply_transaction_coinbase_cex :
    (applyTransaction sigOkAll deriveAddrC parseNone workerNone [] coinbaseTx).1
      = TxResult.fail ∧
    getBalance (applyTransaction sigOkAll deriveAddrC parseNone workerNone
      [] coinbaseTx).2 (some "bob") = 0 := by decide

/-- C3 amended: the claimed behaviour is that of `State.apply_tx` (the
Minichain_v0-compatible entry point): for every coinbase transaction it
skips the signature, nonce and balance checks — no hypothesis about the
signature, the sender's nonce, or any balance appears — credits the
receiver's balance by the amount, touches no other account, and returns
success.  (`State.apply_transaction` instead runs the ordinary checks, as
the counterexample shows.) -/
theorem apply_tx_coinbase (sigOk : Transaction → Bool)
    (deriveAddr : String → Int → String) (parse : String → Option PyAst)
    (worker : Worker) (s : Accounts) (tx : Transaction)
    (hcb : tx.sender = COINBASE_SENDER) :
    (applyTx sigOk deriveAddr parse worker s tx).1 = true ∧
    getBalance (applyTx sigOk deriveAddr parse worker s tx).2 tx.receiver
      = getBalance s tx.receiver + tx.amount ∧
    ∀ k, k ≠ tx.receiver →
      lookupAcc (applyTx sigOk deriveAddr parse worker s tx).2 k = lookupAcc s k := by
  have hbody : applyTx sigOk deriveAddr parse worker s tx =
      (true, updAcc (createAccount s tx.receiver 0) tx.receiver
        (fun a => { a with balance := a.balance + tx.amount })) := by
    simp [applyTx, hcb]
  refine ⟨by rw [hbody], ?_, ?_⟩
  · rw [hbody]
    by_cases hmem : memAcc s tx.receiver
    · rcases Option.isSome_iff_exists.mp hmem with ⟨a, ha⟩
      simp [getBalance, createAccount, hmem, lookupAcc_updAcc_self, ha]
    · have hnone : lookupAcc s tx.receiver = none := by
        cases hlk : lookupAcc s tx.receiver with
        | some a => exact absurd (by simp [memAcc, hlk]) hmem
        | none => rfl
      simp [getBalance, createAccount, hmem, lookupAcc_updAcc_self,
        lookupAcc_append_none _ _ _ hnone, hnone, lookupAcc, zeroAccount]
  · intro k hk
    rw [hbody]
    simp only [lookupAcc_updAcc_ne _ _ _ _ hk, createAccount]
    by_cases hmem : memAcc s tx.receiver
    · simp [hmem]
    · rw [if_neg hmem]
      cases hlk : lookupAcc s k with
      | some a => rw [lookupAcc_append_some _ _ _ _ hlk]
      | none =>
        rw [lookupAcc_append_none _ _ _ hlk]
        simp [lookupAcc, Ne.symm hk]

theorem apply_tx_coinbase_witness :
    (applyTx sigOkAll deriveAddrC parseNone workerNone [] coinbaseTx).1 = true ∧
    getBalance (applyTx sigOkAll deriveAddrC parseNone workerNone
      [] coinbaseTx).2 (some "bob") = 0 + 50 :=
  have h := apply_tx_coinbase sigOkAll deriveAddrC parseNone workerNone
    [] coinbaseTx rfl
  ⟨h.1, by simpa using h.2.1⟩

/-!
## Claim C4 — present data, codeless receiver
-/

/-- A funded sender account map for the C4 counterexample. -/
def aliceState : Accounts := [(some "alice", ⟨100, 0, none, []⟩)]

/-- A signed transaction carrying data to a receiver with no code. -/
def dataTx : Transaction := ⟨"alice", some "bob", 10, 0, some "x", some "sig", 0⟩

/-- C4 counterexample: `State.apply_transaction` treats a present-data
transaction whose receiver account is absent (hence without code) as a
failed contract call — it returns falsy and rolls everything back — whereas
the claim predicts a successful plain transfer crediting `bob`. -/
theorem apply_transaction_codeless_call_cex :
    applyTransaction sigOkAll deriveAddrC parseNone workerNone aliceState dataTx
      = (TxResult.fail, aliceState) := by decide

/-- C4 amended: the claimed plain-transfer behaviour is that of
`State.apply_tx`: a valid transaction with a present receiver, present data,
and no code installed on the receiver account creates the receiver if absent,
credits it, and succeeds.  `State.apply_transaction` instead treats the same
transaction as a failed contract call: it returns falsy and restores the
state exactly. -/
theorem data_codeless_receiver_split (sigOk : Transaction → Bool)
    (deriveAddr : String → Int → String) (parse : String → Option PyAst)
    (worker : Worker) (s : Accounts) (tx : Transaction) (sa : Account)
    (hncb : tx.sender ≠ COINBASE_SENDER)
    (hsa : lookupAcc s (some tx.sender) = some sa)
    (hv : txVerify sigOk tx = true)
    (hnonce : sa.nonce = tx.nonce) (hbal : ¬ sa.balance < tx.amount)
    (hrecv : ¬ (tx.receiver = none ∨ tx.receiver = some ""))
    (hdata : strTruthy tx.data = true)
    (hcodeless : strTruthy (((lookupAcc s tx.receiver).getD zeroAccount).code) = false)
    (hrs : some tx.sender ≠ tx.receiver) :
    ((applyTx sigOk deriveAddr parse worker s tx).1 = true ∧
     getBalance (applyTx sigOk deriveAddr parse worker s tx).2 tx.receiver
       = getBalance s tx.receiver + tx.amount) ∧
    applyTransaction sigOk deriveAddr parse worker s tx = (.fail, s) := by
  have hmem : memAcc s (some tx.sender) = true := by simp [memAcc, hsa]
  have hgn : getNonce s (some tx.sender) = tx.nonce := by
    simp [getNonce, hsa, hnonce]
  have hgb : ¬ getBalance s (some tx.sender) < tx.amount := by
    simpa [getBalance, hsa] using hbal
  have hlk1 : ∀ f, lookupAcc (updAcc s (some tx.sender) f) tx.receiver
      = lookupAcc s tx.receiver :=
    fun f => lookupAcc_updAcc_ne s (some tx.sender) tx.receiver f (Ne.symm hrs)
  constructor
  · -- applyTx: plain transfer
    simp only [applyTx]
    rw [if_neg hncb, if_neg (show ¬ ¬ txVerify sigOk tx = true by simp [hv]),
      if_neg (show ¬ ¬ memAcc s (some tx.sender) = true by simp [hmem]),
      if_neg (show ¬ tx.nonce ≠ getNonce s (some tx.sender) by simp [hgn]),
      if_neg hgb, if_neg hrecv]
    cases hra : lookupAcc s tx.receiver with
    | some ra =>
      have hm1 : memAcc (updAcc s (some tx.sender) fun a =>
          { a with balance := a.balance - tx.amount, nonce := a.nonce + 1 })
          tx.receiver = true := by
        simp [memAcc, hlk1, hra]
      rw [if_pos hm1]
      have hcr : strTruthy ra.code = false := by
        simpa [hra] using hcodeless
      rw [if_neg (by simp [hlk1, hra, hcr])]
      exact ⟨rfl, by simp [getBalance, lookupAcc_updAcc_self, hlk1, hra]⟩
    | none =>
      have hm1 : ¬ memAcc (updAcc s (some tx.sender) fun a =>
          { a with balance := a.balance - tx.amount, nonce := a.nonce + 1 })
          tx.receiver = true := by
        simp [memAcc, hlk1, hra]
      rw [if_neg hm1]
      have hl2 : lookupAcc (createAccount (updAcc s (some tx.sender) fun a =>
          { a with balance := a.balance - tx.amount, nonce := a.nonce + 1 })
          tx.receiver 0) tx.receiver = some zeroAccount := by
        simp only [createAccount, if_neg hm1]
        rw [lookupAcc_append_none _ _ _ (by rw [hlk1, hra])]
        simp [lookupAcc, zeroAccount]
      rw [if_neg (by simp [hl2, zeroAccount, strTruthy])]
      refine ⟨rfl, ?_⟩
      simp [getBalance, lookupAcc_updAcc_self, hl2, zeroAccount, hra]
  · -- applyTransaction: failed call, exact rollback
    have hvl : verifyTransactionLogic sigOk s tx = (true, s) := by
      simp [verifyTransactionLogic, hv, getAccount_present s _ sa hsa,
        if_neg hbal, hnonce]
    have hundo : ∀ k,
        updAcc (updAcc s k fun a =>
          { a with balance := a.balance - tx.amount, nonce := a.nonce + 1 }) k
          (fun a => { a with balance := a.balance + tx.amount, nonce := a.nonce - 1 })
          = s := by
      intro k
      rw [updAcc_updAcc]
      have := updAcc_congr s k (fun a =>
        { balance := a.balance - tx.amount + tx.amount, nonce := a.nonce + 1 - 1,
          code := a.code, storage := a.storage }) (fun a => a) (by intro a; simp)
      simpa using this.trans (updAcc_id s k)
    simp only [applyTransaction, hvl, if_neg hrecv]
    cases hra : lookupAcc s tx.receiver with
    | some ra =>
      have hcr : strTruthy ra.code = false := by simpa [hra] using hcodeless
      simp [hlk1, hra, hcr, hdata, hundo]
    | none => simp [hlk1, hra, hdata, hundo]

theorem data_codeless_receiver_witness :
    ((applyTx sigOkAll deriveAddrC parseNone workerNone aliceState dataTx).1 = true ∧
     getBalance (applyTx sigOkAll deriveAddrC parseNone workerNone
       aliceState dataTx).2 (some "bob") = 10) ∧
    applyTransaction sigOkAll deriveAddrC parseNone workerNone aliceState dataTx
      = (.fail, aliceState) := by
  have h := data_codeless_receiver_split sigOkAll deriveAddrC parseNone workerNone
    aliceState dataTx ⟨100, 0, none, []⟩ (by decide) (by decide) (by decide)
    (by decide) (by decide) (by decide) (by decide) (by decide) (by decide)
  refine ⟨⟨h.1.1, ?_⟩, h.2⟩
  have h2 := h.1.2
  simp only [show dataTx.receiver = some "bob" from rfl] at h2
  rw [h2]; decide

/-!
## Claim C10 — lazy sender creation during failed validation
-/

/-- An unsigned non-coinbase transaction from an absent sender. -/
def noSigTx : Transaction := ⟨"alice", some "bob", 5, 0, none, none, 0⟩

/-- C10 counterexample: when signature verification fails (here: a missing
signature), `verify_transaction_logic` returns before ever touching
`get_account`, so a failed `apply_transaction` from an absent sender leaves
the accounts map exactly empty — no all-zero sender account is inserted,
contrary to the claim's "for every non-coinbase transaction whose sender has
no existing account". -/
theorem no_lazy_insert_on_bad_signature_cex :
    applyTransaction sigOkAll deriveAddrC parseNone workerNone [] noSigTx
      = (TxResult.fail, []) := by decide

/-- C10 amended: for every non-coinbase transaction that passes signature
verification and whose sender has no account, the validation step lazily
appends an all-zero sender account (balance 0, nonce 0, no code, empty
storage); when the balance or nonce check then fails, `apply_transaction`
returns falsy with exactly that extended map, and every pre-existing
account is untouched. -/
theorem lazy_sender_insert_on_failed_validation (sigOk : Transaction → Bool)
    (deriveAddr : String → Int → String) (parse : String → Option PyAst)
    (worker : Worker) (s : Accounts) (tx : Transaction)
    (hv : txVerify sigOk tx = true)
    (habs : lookupAcc s (some tx.sender) = none)
    (hfail : 0 < tx.amount ∨ tx.nonce ≠ 0) :
    applyTransaction sigOk deriveAddr parse worker s tx
      = (.fail, s ++ [(some tx.sender, zeroAccount)]) ∧
    ∀ k, memAcc s k →
      lookupAcc (s ++ [(some tx.sender, zeroAccount)]) k = lookupAcc s k := by
  have hvl : verifyTransactionLogic sigOk s tx
      = (false, s ++ [(some tx.sender, zeroAccount)]) := by
    simp only [verifyTransactionLogic, hv, not_true, if_false,
      getAccount_absent s _ habs]
    rcases hfail with hamt | hnz
    · rw [if_pos (show zeroAccount.balance < tx.amount from hamt)]
    · by_cases hamt : zeroAccount.balance < tx.amount
      · rw [if_pos hamt]
      · rw [if_neg hamt, if_pos (show zeroAccount.nonce ≠ tx.nonce from
          by simpa [zeroAccount, eq_comm] using hnz)]
  refine ⟨by simp [applyTransaction, hvl], ?_⟩
  intro k hk
  rcases Option.isSome_iff_exists.mp hk with ⟨a, ha⟩
  rw [lookupAcc_append_some _ _ _ _ ha, ha]

theorem lazy_sender_insert_witness :
    applyTransaction sigOkAll deriveAddrC parseNone workerNone
      [(some "carol", ⟨9, 2, none, []⟩)] dataTx
      = (.fail, [(some "carol", ⟨9, 2, none, []⟩),
                 (some "alice", zeroAccount)]) ∧
    lookupAcc [(some "carol", ⟨9, 2, none, []⟩),
               (some "alice", zeroAccount)] (some "carol")
      = some ⟨9, 2, none, []⟩ :=
  have h := lazy_sender_insert_on_failed_validation sigOkAll deriveAddrC
    parseNone workerNone [(some "carol", ⟨9, 2, none, []⟩)] dataTx
    (by decide) (by decide) (Or.inl (by decide))
  ⟨h.1, by decide⟩

/-!
## Claim C5 — balance/nonce guard and replay protection
-/

theorem verifyTransactionLogic_true_inv (sigOk : Transaction → Bool)
    (s : Accounts) (tx : Transaction) (s1 : Accounts)
    (h : verifyTransactionLogic sigOk s tx = (true, s1)) :
    ∃ a, lookupAcc s1 (some tx.sender) = some a ∧ a.nonce = tx.nonce ∧
      ¬ a.balance < tx.amount := by
  by_cases hv : txVerify sigOk tx = true
  · simp only [verifyTransactionLogic, hv, not_true, if_false] at h
    cases hlk : lookupAcc s (some tx.sender) with
    | some a =>
      rw [getAccount_present s _ a hlk] at h
      by_cases hb : a.balance < tx.amount
      · simp [hb] at h
      · by_cases hn : a.nonce ≠ tx.nonce
        · simp [hb, hn] at h
        · simp only [hb, if_false, hn, if_false] at h
          injection h with h1 h2
          exact ⟨a, h2 ▸ hlk, not_not.mp hn, hb⟩
    | none =>
      rw [getAccount_absent s _ hlk] at h
      by_cases hb : zeroAccount.balance < tx.amount
      · simp [hb] at h
      · by_cases hn : zeroAccount.nonce ≠ tx.nonce
        · simp [hb, hn] at h
        · simp only [hb, if_false, hn, if_false] at h
          injection h with h1 h2
          refine ⟨zeroAccount, h2 ▸ ?_, not_not.mp hn, hb⟩
          rw [lookupAcc_append_none s _ _ hlk]
          simp [lookupAcc]
  · simp [verifyTransactionLogic, hv] at h

theorem cmExecute_preserves (parse : String → Option PyAst) (worker : Worker)
    (s : Accounts) (k : Key) (sender payload : String) (amount : Int)
    (r : Bool) (s' : Accounts)
    (h : cmExecute parse worker s k sender payload amount = (r, s'))
    (key : Key) (a : Account) (hlk : lookupAcc s key = some a) :
    ∃ a', lookupAcc s' key = some a' ∧ a'.nonce = a.nonce ∧
      a'.balance = a.balance := by
  cases hga : lookupAcc s k with
  | some acc =>
    rw [cmExecute, getAccount_present s _ acc hga] at h
    dsimp only at h
    by_cases hc : ¬ strTruthy acc.code = true
    · rw [if_pos hc] at h
      injection h with h1 h2
      exact ⟨a, h2 ▸ hlk, rfl, rfl⟩
    · rw [if_neg hc] at h
      cases hcode : acc.code with
      | none => simp [hcode, strTruthy] at hc
      | some code =>
        simp only [hcode] at h
        by_cases hval : ¬ validateCodeAst parse code = true
        · rw [if_pos hval] at h
          injection h with h1 h2
          exact ⟨a, h2 ▸ hlk, rfl, rfl⟩
        · rw [if_neg hval] at h
          cases hw : worker ((parse code).getD .nil) acc.storage
              ⟨sender, amount, payload⟩ with
          | none =>
            rw [hw] at h
            injection h with h1 h2
            exact ⟨a, h2 ▸ hlk, rfl, rfl⟩
          | some st =>
            rw [hw] at h
            injection h with h1 h2
            by_cases hkk : key = k
            · subst hkk
              refine ⟨{ a with storage := st }, h2 ▸ ?_, rfl, rfl⟩
              simp [updateContractStorage, lookupAcc_updAcc_self, hlk]
            · refine ⟨a, h2 ▸ ?_, rfl, rfl⟩
              simpa [updateContractStorage, lookupAcc_updAcc_ne _ _ _ _ hkk]
                using hlk
  | none =>
    rw [cmExecute, getAccount_absent s _ hga] at h
    dsimp only at h
    rw [if_pos (show ¬ strTruthy zeroAccount.code = true by
      simp [zeroAccount, strTruthy])] at h
    injection h with h1 h2
    exact ⟨a, h2 ▸ lookupAcc_append_some s _ key a hlk, rfl, rfl⟩

theorem getAccount_snd_lookup (s : Accounts) (k key : Key) (b : Account)
    (h : lookupAcc s key = some b) :
    lookupAcc (getAccount s k).2 key = some b := by
  cases hga : lookupAcc s k with
  | some acc => rw [getAccount_present s _ acc hga]; exact h
  | none => rw [getAccount_absent s _ hga]; exact lookupAcc_append_some s _ key b h

theorem lookupAcc_balance_upd (s : Accounts) (k key : Key) (b : Account)
    (amt : Int) (h : lookupAcc s key = some b) :
    ∃ b', lookupAcc (updAcc s k
      (fun a => { a with balance := a.balance + amt })) key = some b' ∧
      b'.nonce = b.nonce := by
  by_cases hkk : key = k
  · subst hkk
    exact ⟨{ b with balance := b.balance + amt },
      by rw [lookupAcc_updAcc_self, h]; rfl, rfl⟩
  · exact ⟨b, by rw [lookupAcc_updAcc_ne _ _ _ _ hkk]; exact h, rfl⟩

/-- After a truthy `apply_transaction`, the sender's account nonce is the
transaction nonce plus one (assuming the SHA-256-derived 40-hex-character
contract address never coincides with the sender identifier, which the
abstract `deriveAddr` must be told). -/
theorem applyTransaction_success_sender_nonce (sigOk : Transaction → Bool)
    (deriveAddr : String → Int → String) (parse : String → Option PyAst)
    (worker : Worker) (s : Accounts) (tx : Transaction) (r : TxResult)
    (s' : Accounts)
    (h : applyTransaction sigOk deriveAddr parse worker s tx = (r, s'))
    (hr : r.truthy = true)
    (hda : deriveAddr tx.sender tx.nonce ≠ tx.sender) :
    ∃ a', lookupAcc s' (some tx.sender) = some a' ∧ a'.nonce = tx.nonce + 1 := by
  rcases hvl : verifyTransactionLogic sigOk s tx with ⟨b, s1⟩
  cases b with
  | false =>
    rw [applyTransaction, hvl] at h
    dsimp only at h
    injection h with h1 h2
    subst h1
    simp [TxResult.truthy] at hr
  | true =>
    rw [applyTransaction, hvl] at h
    dsimp only at h
    obtain ⟨a, hlka, hanonce, habal⟩ := verifyTransactionLogic_true_inv sigOk s tx s1 hvl
    have hlk2 : lookupAcc (updAcc s1 (some tx.sender) fun x =>
        { x with balance := x.balance - tx.amount, nonce := x.nonce + 1 })
        (some tx.sender)
        = some { a with balance := a.balance - tx.amount, nonce := a.nonce + 1 } := by
      rw [lookupAcc_updAcc_self, hlka]; rfl
    split at h
    · -- deploy branch
      split at h
      · injection h with h1 h2
        subst h1
        simp [TxResult.truthy] at hr
      · injection h with h1 h2
        refine ⟨{ a with balance := a.balance - tx.amount, nonce := a.nonce + 1 },
          h2 ▸ ?_, by rw [hanonce]⟩
        rw [createContract, lookupAcc_setAcc_ne _ _ _ _
          (by simpa [eq_comm] using fun hx => hda (Option.some.inj hx).symm)]
        exact hlk2
    · split at h
      · -- contract-call branch
        split at h
        · -- receiver account absent
          injection h with h1 h2
          subst h1
          simp [TxResult.truthy] at hr
        · rename_i receiverAcc hrecv
          split at h
          · injection h with h1 h2
            subst h1
            simp [TxResult.truthy] at hr
          · split at h
            · rename_i s4 hexec
              injection h with h1 h2
              obtain ⟨b2, hb2, hb2n⟩ := lookupAcc_balance_upd _ tx.receiver
                (some tx.sender) _ tx.amount hlk2
              obtain ⟨a', ha', ha'n, _⟩ := cmExecute_preserves parse worker _
                tx.receiver tx.sender (tx.data.getD "") tx.amount _ _ hexec
                (some tx.sender) b2 hb2
              exact ⟨a', h2 ▸ ha', by rw [ha'n, hb2n]; simp [hanonce]⟩
            · injection h with h1 h2
              subst h1
              simp [TxResult.truthy] at hr
      · -- plain transfer branch
        rcases hga : getAccount (updAcc s1 (some tx.sender) fun x =>
            { x with balance := x.balance - tx.amount, nonce := x.nonce + 1 })
            tx.receiver with ⟨racc, s3⟩
        rw [hga] at h
        dsimp only at h
        injection h with h1 h2
        have hs3 : lookupAcc s3 (some tx.sender)
            = some { a with balance := a.balance - tx.amount, nonce := a.nonce + 1 } := by
          have := getAccount_snd_lookup (updAcc s1 (some tx.sender) fun x =>
            { x with balance := x.balance - tx.amount, nonce := x.nonce + 1 })
            tx.receiver (some tx.sender) _ hlk2
          rw [hga] at this
          exact this
        obtain ⟨b2, hb2, hb2n⟩ := lookupAcc_balance_upd s3 tx.receiver
          (some tx.sender) _ tx.amount hs3
        exact ⟨b2, h2 ▸ hb2, by rw [hb2n]; simp [hanonce]⟩

/-- C5: for every non-coinbase transaction, when the sender's balance is
below the amount or the sender's account nonce differs from the
transaction's, `apply_transaction` returns falsy and the sender's balance
and nonce are unchanged; and once a transaction has been applied with a
truthy result, any transaction reusing the same `(sender, nonce)` pair fails
(the `deriveAddr` hypothesis records that a derived 40-hex contract address
never equals the sender identifier). -/
theorem apply_transaction_guard_and_replay (sigOk : Transaction → Bool)
    (deriveAddr : String → Int → String) (parse : String → Option PyAst)
    (worker : Worker) :
    (∀ s tx, tx.sender ≠ COINBASE_SENDER →
      (getBalance s (some tx.sender) < tx.amount ∨
       getNonce s (some tx.sender) ≠ tx.nonce) →
      (applyTransaction sigOk deriveAddr parse worker s tx).1 = TxResult.fail ∧
      getBalance (applyTransaction sigOk deriveAddr parse worker s tx).2
        (some tx.sender) = getBalance s (some tx.sender) ∧
      getNonce (applyTransaction sigOk deriveAddr parse worker s tx).2
        (some tx.sender) = getNonce s (some tx.sender)) ∧
    (∀ s tx r s' tx2, tx.sender ≠ COINBASE_SENDER →
      applyTransaction sigOk deriveAddr parse worker s tx = (r, s') →
      r.truthy = true → deriveAddr tx.sender tx.nonce ≠ tx.sender →
      tx2.sender = tx.sender → tx2.nonce = tx.nonce →
      (applyTransaction sigOk deriveAddr parse worker s' tx2).1
        = TxResult.fail) := by
  have partA : ∀ s tx,
      (getBalance s (some tx.sender) < tx.amount ∨
       getNonce s (some tx.sender) ≠ tx.nonce) →
      (applyTransaction sigOk deriveAddr parse worker s tx).1 = TxResult.fail ∧
      getBalance (applyTransaction sigOk deriveAddr parse worker s tx).2
        (some tx.sender) = getBalance s (some tx.sender) ∧
      getNonce (applyTransaction sigOk deriveAddr parse worker s tx).2
        (some tx.sender) = getNonce s (some tx.sender) := by
    intro s tx hcond
    have key : ∃ s1, verifyTransactionLogic sigOk s tx = (false, s1) ∧
        getBalance s1 (some tx.sender) = getBalance s (some tx.sender) ∧
        getNonce s1 (some tx.sender) = getNonce s (some tx.sender) := by
      by_cases hv : txVerify sigOk tx = true
      · cases hlk : lookupAcc s (some tx.sender) with
        | some a =>
          refine ⟨s, ?_, rfl, rfl⟩
          simp only [verifyTransactionLogic, hv, not_true, if_false,
            getAccount_present s _ a hlk]
          rcases hcond with hb | hn
          · rw [if_pos (show a.balance < tx.amount by
              simpa [getBalance, hlk] using hb)]
          · by_cases hb2 : a.balance < tx.amount
            · rw [if_pos hb2]
            · rw [if_neg hb2, if_pos (show a.nonce ≠ tx.nonce by
                simpa [getNonce, hlk] using hn)]
        | none =>
          have hz : lookupAcc (s ++ [(some tx.sender, zeroAccount)])
              (some tx.sender) = some zeroAccount := by
            rw [lookupAcc_append_none s _ _ hlk]
            simp [lookupAcc]
          refine ⟨s ++ [(some tx.sender, zeroAccount)], ?_,
            by unfold getBalance; rw [hz, hlk]; rfl,
            by unfold getNonce; rw [hz, hlk]; rfl⟩
          simp only [verifyTransactionLogic, hv, not_true, if_false,
            getAccount_absent s _ hlk]
          rcases hcond with hb | hn
          · rw [if_pos (show zeroAccount.balance < tx.amount by
              simpa [getBalance, hlk, zeroAccount] using hb)]
          · by_cases hb2 : zeroAccount.balance < tx.amount
            · rw [if_pos hb2]
            · rw [if_neg hb2, if_pos (show zeroAccount.nonce ≠ tx.nonce by
                simpa [getNonce, hlk, zeroAccount] using hn)]
      · exact ⟨s, by simp [verifyTransactionLogic, hv], rfl, rfl⟩
    obtain ⟨s1, hvl, hbal, hnon⟩ := key
    have happ : applyTransaction sigOk deriveAddr parse worker s tx
        = (.fail, s1) := by
      rw [applyTransaction, hvl]
    rw [happ]
    exact ⟨rfl, hbal, hnon⟩
  refine ⟨fun s tx _ hcond => partA s tx hcond, ?_⟩
  intro s tx r s' tx2 hncb h hr hda hsend hnon
  obtain ⟨a', ha', hn'⟩ := applyTransaction_success_sender_nonce sigOk deriveAddr
    parse worker s tx r s' h hr hda
  have : getNonce s' (some tx2.sender) ≠ tx2.nonce := by
    rw [hsend, hnon, getNonce, ha']
    simp [hn']
  exact (partA s' tx2 (Or.inr this)).1

/-- C5 witness: a transfer that overdraws fails and leaves the sender's
account untouched, and replaying the `(sender, nonce)` pair of a
successfully applied transfer fails. -/
theorem apply_transaction_guard_and_replay_witness :
    ((applyTransaction sigOkAll deriveAddrC parseNone workerNone
        [(some "alice", ⟨5, 0, none, []⟩)] dataTx).1 = TxResult.fail ∧
      getBalance (applyTransaction sigOkAll deriveAddrC parseNone workerNone
        [(some "alice", ⟨5, 0, none, []⟩)] dataTx).2 (some "alice") = 5) ∧
    (applyTransaction sigOkAll deriveAddrC parseNone workerNone
      (applyTransaction sigOkAll deriveAddrC parseNone workerNone
        aliceState ⟨"alice", some "bob", 10, 0, none, some "sig", 0⟩).2
      ⟨"alice", some "dave", 1, 0, none, some "sig", 0⟩).1 = TxResult.fail := by
  have hA := (apply_transaction_guard_and_replay sigOkAll deriveAddrC parseNone
    workerNone).1 [(some "alice", ⟨5, 0, none, []⟩)] dataTx (by decide)
    (Or.inl (by decide))
  have hB := (apply_transaction_guard_and_replay sigOkAll deriveAddrC parseNone
    workerNone).2 aliceState ⟨"alice", some "bob", 10, 0, none, some "sig", 0⟩
    _ _ ⟨"alice", some "dave", 1, 0, none, some "sig", 0⟩ (by decide) rfl
    (by decide) (by decide) rfl rfl
  refine ⟨⟨hA.1, ?_⟩, hB⟩
  have hA2 := hA.2.1
  simp only [show dataTx.sender = "alice" from rfl] at hA2
  rw [hA2]; decide

/-!
## Claim C9 — no proof-of-work check for absent/zero difficulty
-/

/-- The spec-side variant of `add_block` with the proof-of-work step removed
entirely (only index linkage, previous-hash linkage, recorded header hash,
and transaction validation remain); used to state that blocks whose
difficulty is `None` or `0` undergo no leading-zero check at all. -/
def addBlockNoPow (sha : String → String) (serHeader : Header → String)
    (sigOk : Transaction → Bool) (deriveAddr : String → Int → String)
    (parse : String → Option PyAst) (worker : Worker)
    (bc : Blockchain) (b : Block) : Bool × Blockchain :=
  match bc.chain.getLast? with
  | none => (false, bc)
  | some last =>
    if some b.previous_hash ≠ last.hash then (false, bc)
    else if b.index ≠ last.index + 1 then (false, bc)
    else
      let computed := calculateHash sha serHeader b.header
      if b.hash ≠ some computed then (false, bc)
      else
        match applyTxs sigOk deriveAddr parse worker bc.state b.transactions with
        | none => (false, bc)
        | some st => (true, ⟨bc.chain ++ [b], st⟩)

/-- The spec-side variant of `validate_chain`'s per-block loop with the
proof-of-work step removed. -/
def validateBlocksNoPow (sha : String → String) (serHeader : Header → String)
    (serTx : Transaction → String) (sigOk : Transaction → Bool)
    (deriveAddr : String → Int → String) (parse : String → Option PyAst)
    (worker : Worker) :
    BlockData → Accounts → List BlockData → Bool
  | _, _, [] => true
  | prev, st, bd :: rest =>
    if bd.index ≠ prev.index + 1 then false
    else if some bd.previous_hash ≠ prev.hash then false
    else
      let blk := blockOfData sha serTx bd
      let computed := calculateHash sha serHeader blk.header
      if bd.hash ≠ some computed then false
      else
        match applyTxs sigOk deriveAddr parse worker st blk.transactions with
        | none => false
        | some st' =>
          validateBlocksNoPow sha serHeader serTx sigOk deriveAddr parse worker
            bd st' rest

/-- The spec-side variant of `validate_chain` with the proof-of-work step
removed. -/
def validateChainNoPow (sha : String → String) (serHeader : Header → String)
    (serTx : Transaction → String) (sigOk : Transaction → Bool)
    (deriveAddr : String → Int → String) (parse : String → Option PyAst)
    (worker : Worker) (cd : List BlockData) : Bool :=
  match cd with
  | [] => false
  | g :: rest =>
    if g.hash ≠ some GENESIS_HASH then false
    else if g.index ≠ 0 then false
    else validateBlocksNoPow sha serHeader serTx sigOk deriveAddr parse worker g [] rest

theorem powOk_trivial (h : String) (d : Option Int)
    (hd : d = none ∨ d = some 0) : powOk h d = true := by
  rcases hd with hd | hd <;> simp [powOk, hd]

/-- C9: for a block whose `difficulty` is `None` or `0`, `add_block` performs
no leading-zero proof-of-work check at all — it behaves exactly like the
check-free variant, accepting on linkage, header hash and transactions alone
— and `validate_chain` does the same for a candidate all of whose
non-genesis blocks carry `None`/`0` difficulty. -/
theorem no_pow_check_when_difficulty_absent (sha : String → String)
    (serHeader : Header → String) (serTx : Transaction → String)
    (sigOk : Transaction → Bool) (deriveAddr : String → Int → String)
    (parse : String → Option PyAst) (worker : Worker) :
    (∀ bc b, (b.difficulty = none ∨ b.difficulty = some 0) →
      addBlock sha serHeader sigOk deriveAddr parse worker bc b =
      addBlockNoPow sha serHeader sigOk deriveAddr parse worker bc b) ∧
    (∀ cd, (∀ bd ∈ cd, bd.difficulty = none ∨ bd.difficulty = some 0) →
      validateChain sha serHeader serTx sigOk deriveAddr parse worker cd =
      validateChainNoPow sha serHeader serTx sigOk deriveAddr parse worker cd) := by
  constructor
  · intro bc b hd
    rw [addBlock, addBlockNoPow]
    cases bc.chain.getLast? with
    | none => rfl
    | some last =>
      simp only [powOk_trivial _ _ hd, not_true, if_false]
  · intro cd hd
    cases cd with
    | nil => rfl
    | cons g rest =>
      rw [validateChain, validateChainNoPow]
      have hrest : ∀ bd ∈ rest, bd.difficulty = none ∨ bd.difficulty = some 0 :=
        fun bd hbd => hd bd (List.mem_cons_of_mem g hbd)
      have main : ∀ (l : List BlockData) (prev : BlockData) (st : Accounts),
          (∀ bd ∈ l, bd.difficulty = none ∨ bd.difficulty = some 0) →
          validateBlocks sha serHeader serTx sigOk deriveAddr parse worker
            prev st l =
          validateBlocksNoPow sha serHeader serTx sigOk deriveAddr parse worker
            prev st l := by
        intro l
        induction l with
        | nil => intro prev st _; rfl
        | cons bd rest2 ih =>
          intro prev st hl
          have hbd := hl bd (List.mem_cons_self bd rest2)
          have hrest2 : ∀ x ∈ rest2, x.difficulty = none ∨ x.difficulty = some 0 :=
            fun x hx => hl x (List.mem_cons_of_mem bd hx)
          have hpow : powOk (calculateHash sha serHeader
              (blockOfData sha serTx bd).header) bd.difficulty = true :=
            powOk_trivial _ _ hbd
          simp only [validateBlocks, validateBlocksNoPow, hpow, not_true,
            Bool.not_eq_true, Bool.true_eq_false, if_false]
          split_ifs with h1 h2 h3 <;> try rfl
          cases hap : applyTxs sigOk deriveAddr parse worker st
              (blockOfData sha serTx bd).transactions with
          | none => rfl
          | some st' => exact ih bd st' hrest2
      rw [main rest g [] hrest]

/-- Concrete hash/serialization oracles for chain-level witnesses. -/
def shaH : String → String := fun _ => "H"

/-- Concrete header serializer for chain-level witnesses. -/
def serHC : Header → String := fun _ => ""

/-- Concrete transaction serializer for chain-level witnesses. -/
def serTC : Transaction → String := fun _ => ""

theorem no_pow_check_witness :
    addBlock shaH serHC sigOkAll deriveAddrC parseNone workerNone
      (mkBlockchain 0) ⟨1, "x", [], 0, none, 0, none, none⟩ =
    addBlockNoPow shaH serHC sigOkAll deriveAddrC parseNone workerNone
      (mkBlockchain 0) ⟨1, "x", [], 0, none, 0, none, none⟩ ∧
    validateChain shaH serHC serTC sigOkAll deriveAddrC parseNone workerNone
      [⟨0, "0", 0, none, 0, [], some GENESIS_HASH⟩] =
    validateChainNoPow shaH serHC serTC sigOkAll deriveAddrC parseNone workerNone
      [⟨0, "0", 0, none, 0, [], some GENESIS_HASH⟩] :=
  ⟨(no_pow_check_when_difficulty_absent shaH serHC serTC sigOkAll deriveAddrC
      parseNone workerNone).1 (mkBlockchain 0) ⟨1, "x", [], 0, none, 0, none, none⟩
      (Or.inl rfl),
   (no_pow_check_when_difficulty_absent shaH serHC serTC sigOkAll deriveAddrC
      parseNone workerNone).2 [⟨0, "0", 0, none, 0, [], some GENESIS_HASH⟩]
      (by intro bd hbd; simp at hbd; rw [hbd]; exact Or.inl rfl)⟩

/-!
## Claim C1 — all-or-nothing block acceptance
-/

/-- C1 counterexample: a block every one of whose transactions succeeds
(vacuously — it has none) and whose recorded hash is even consistent is
nevertheless rejected with the chain unchanged, because the previous-hash
linkage check precedes transaction validation: the claim's "for every block
passed to `add_block` … if every transaction succeeds, the clone becomes the
new live state and the block is appended" fails on it. -/
theorem add_block_header_reject_cex :
    addBlock shaH serHC sigOkAll deriveAddrC parseNone workerNone
      (mkBlockchain 0) ⟨1, "junk", [], 0, none, 0, none, some "H"⟩
      = (false, mkBlockchain 0) ∧
    applyTxs sigOkAll deriveAddrC parseNone workerNone
      (mkBlockchain 0).state [] = some (mkBlockchain 0).state ∧
    (⟨1, "junk", [], 0, none, 0, none, some "H"⟩ : Block).hash
      = some (calculateHash shaH serHC
          (⟨1, "junk", [], 0, none, 0, none, some "H"⟩ : Block).header) := by
  decide

/-- C1 amended: for every block that passes the header checks (previous-hash
linkage, index linkage, recorded hash, difficulty), `add_block` applies the
block's transactions in order to a clone of the live state; if any
application is falsy the call returns failure with chain and state exactly
as before, and if all succeed the clone becomes the live state and the block
is appended.  Unconditionally, every failing `add_block` call leaves the
blockchain object exactly unchanged. -/
theorem add_block_atomic (sha : String → String) (serHeader : Header → String)
    (sigOk : Transaction → Bool) (deriveAddr : String → Int → String)
    (parse : String → Option PyAst) (worker : Worker) :
    (∀ bc b last, bc.chain.getLast? = some last →
      some b.previous_hash = last.hash → b.index = last.index + 1 →
      b.hash = some (calculateHash sha serHeader b.header) →
      powOk (calculateHash sha serHeader b.header) b.difficulty = true →
      (applyTxs sigOk deriveAddr parse worker bc.state b.transactions = none →
        addBlock sha serHeader sigOk deriveAddr parse worker bc b = (false, bc)) ∧
      (∀ st, applyTxs sigOk deriveAddr parse worker bc.state b.transactions
          = some st →
        addBlock sha serHeader sigOk deriveAddr parse worker bc b
          = (true, ⟨bc.chain ++ [b], st⟩))) ∧
    (∀ bc b,
      (addBlock sha serHeader sigOk deriveAddr parse worker bc b).1 = false →
      (addBlock sha serHeader sigOk deriveAddr parse worker bc b).2 = bc) := by
  constructor
  · intro bc b last hlast hprev hidx hhash hpow
    rw [addBlock, hlast]
    dsimp only
    rw [if_neg (fun hne => hne hprev)]
    rw [if_neg (fun hne => hne hidx)]
    rw [if_neg (fun hne => hne hhash)]
    rw [if_neg (show ¬ ¬ powOk (calculateHash sha serHeader b.header)
      b.difficulty = true by simp [hpow])]
    constructor
    · intro hap
      rw [hap]
    · intro st hap
      rw [hap]
  · intro bc b
    rw [addBlock]
    cases hl : bc.chain.getLast? with
    | none => intro _; rfl
    | some last =>
      dsimp only
      split_ifs <;> (try exact fun _ => rfl)
      cases hap : applyTxs sigOk deriveAddr parse worker bc.state b.transactions with
      | none => exact fun _ => rfl
      | some st => intro hcontra; simp at hcontra

/-- C1 witness: a well-linked empty block is accepted and appended, with the
validated clone committed as the live state. -/
theorem add_block_atomic_witness :
    addBlock shaH serHC sigOkAll deriveAddrC parseNone workerNone
      (mkBlockchain 0) ⟨1, GENESIS_HASH, [], 0, none, 0, none, some "H"⟩
      = (true, ⟨(mkBlockchain 0).chain ++
          [⟨1, GENESIS_HASH, [], 0, none, 0, none, some "H"⟩], []⟩) :=
  ((add_block_atomic shaH serHC sigOkAll deriveAddrC parseNone workerNone).1
    (mkBlockchain 0) ⟨1, GENESIS_HASH, [], 0, none, 0, none, some "H"⟩
    (genesisBlock 0) (by decide) (by decide) (by decide) (by decide)
    (by decide)).2 [] rfl

/-!
## Claim C2 — longest-valid-chain replacement
-/

/-- C2 counterexample: an equal-length valid candidate (here: the node's own
one-block chain re-serialized) makes `replace_chain` return success — the
"successful sync" branch — although it is not strictly longer; the claim
predicts rejection for every candidate that is not strictly longer.  The
chain and state do remain unchanged. -/
theorem replace_chain_equal_length_cex :
    replaceChain shaH serHC serTC sigOkAll deriveAddrC parseNone workerNone 0
      (mkBlockchain 0) [⟨0, "0", 0, none, 0, [], some GENESIS_HASH⟩]
      = (true, mkBlockchain 0) ∧
    ([⟨0, "0", 0, none, 0, [], some GENESIS_HASH⟩] : List BlockData).length
      = (mkBlockchain 0).chain.length := by decide

theorem validateBlocks_rebuild (sha : String → String)
    (serHeader : Header → String) (serTx : Transaction → String)
    (sigOk : Transaction → Bool) (deriveAddr : String → Int → String)
    (parse : String → Option PyAst) (worker : Worker) :
    ∀ (l : List BlockData) (prev : BlockData) (st : Accounts),
      validateBlocks sha serHeader serTx sigOk deriveAddr parse worker
        prev st l = true →
      ∃ bs stf, rebuildBlocks sha serTx sigOk deriveAddr parse worker st l
        = some (bs, stf) := by
  intro l
  induction l with
  | nil => exact fun prev st _ => ⟨[], st, rfl⟩
  | cons bd rest ih =>
    intro prev st h
    rw [validateBlocks] at h
    dsimp only at h
    split_ifs at h
    split at h
    · exact absurd h (by simp)
    · rename_i st' hap
      obtain ⟨bs, stf, hr⟩ := ih bd st' h
      refine ⟨blockOfData sha serTx bd :: bs, stf, ?_⟩
      rw [rebuildBlocks, hap]
      dsimp only
      rw [hr]

/-- C2 amended: `replace_chain` rejects every strictly shorter candidate and
every candidate failing `validate_chain`, leaving chain and state unchanged;
an equal-length candidate is not adopted either, but the call returns the
validation verdict (so an equal-length *valid* candidate yields a success
return with nothing replaced); only a strictly longer candidate passing
`validate_chain` is adopted, the chain and state being rebuilt from the
candidate and swapped in together. -/
theorem replace_chain_longest_valid (sha : String → String)
    (serHeader : Header → String) (serTx : Transaction → String)
    (sigOk : Transaction → Bool) (deriveAddr : String → Int → String)
    (parse : String → Option PyAst) (worker : Worker) (nowTs : Int) :
    (∀ bc cd, cd.length < bc.chain.length →
      replaceChain sha serHeader serTx sigOk deriveAddr parse worker nowTs bc cd
        = (false, bc)) ∧
    (∀ bc cd, cd.length = bc.chain.length →
      replaceChain sha serHeader serTx sigOk deriveAddr parse worker nowTs bc cd
        = (validateChain sha serHeader serTx sigOk deriveAddr parse worker cd, bc)) ∧
    (∀ bc cd, bc.chain.length < cd.length →
      validateChain sha serHeader serTx sigOk deriveAddr parse worker cd = false →
      replaceChain sha serHeader serTx sigOk deriveAddr parse worker nowTs bc cd
        = (false, bc)) ∧
    (∀ bc cd, bc.chain.length < cd.length →
      validateChain sha serHeader serTx sigOk deriveAddr parse worker cd = true →
      ∃ bs stf,
        rebuildBlocks sha serTx sigOk deriveAddr parse worker [] cd.tail
          = some (bs, stf) ∧
        replaceChain sha serHeader serTx sigOk deriveAddr parse worker nowTs bc cd
          = (true, ⟨genesisBlock nowTs :: bs, stf⟩)) := by
  refine ⟨?_, ?_, ?_, ?_⟩
  · intro bc cd hlt
    rw [replaceChain, if_pos hlt]
  · intro bc cd heq
    rw [replaceChain, if_neg (by omega), if_pos heq]
  · intro bc cd hgt hval
    rw [replaceChain, if_neg (by omega), if_neg (by omega),
      if_pos (by simp [hval])]
  · intro bc cd hgt hval
    have hne : cd ≠ [] := by
      intro hnil
      rw [hnil] at hval
      simp [validateChain] at hval
    obtain ⟨g, rest, rfl⟩ := List.exists_cons_of_ne_nil hne
    have hvb : validateBlocks sha serHeader serTx sigOk deriveAddr parse worker
        g [] rest = true := by
      rw [validateChain] at hval
      split_ifs at hval
      exact hval
    obtain ⟨bs, stf, hr⟩ := validateBlocks_rebuild sha serHeader serTx sigOk
      deriveAddr parse worker rest g [] hvb
    refine ⟨bs, stf, hr, ?_⟩
    rw [replaceChain, if_neg (by omega), if_neg (by omega),
      if_neg (by simp [hval])]
    rw [show (g :: rest).tail = rest from rfl, hr]

/-- C2 witness: a two-block valid candidate replaces a fresh one-block chain;
a strictly shorter candidate is rejected unchanged. -/
theorem replace_chain_longest_valid_witness :
    replaceChain shaH serHC serTC sigOkAll deriveAddrC parseNone workerNone 7
      (mkBlockchain 0)
      [⟨0, "0", 0, none, 0, [], some GENESIS_HASH⟩,
       ⟨1, GENESIS_HASH, 0, none, 0, [], some "H"⟩]
      = (true, ⟨[genesisBlock 7,
          ⟨1, GENESIS_HASH, [], 0, none, 0, none, some "H"⟩], []⟩) ∧
    replaceChain shaH serHC serTC sigOkAll deriveAddrC parseNone workerNone 7
      ⟨[genesisBlock 0, genesisBlock 1], []⟩ [] = (false,
        ⟨[genesisBlock 0, genesisBlock 1], []⟩) := by
  have h4 := (replace_chain_longest_valid shaH serHC serTC sigOkAll deriveAddrC
    parseNone workerNone 7).2.2.2 (mkBlockchain 0)
    [⟨0, "0", 0, none, 0, [], some GENESIS_HASH⟩,
     ⟨1, GENESIS_HASH, 0, none, 0, [], some "H"⟩] (by decide) (by decide)
  have h1 := (replace_chain_longest_valid shaH serHC serTC sigOkAll deriveAddrC
    parseNone workerNone 7).1 ⟨[genesisBlock 0, genesisBlock 1], []⟩ []
    (by decide)
  obtain ⟨bs, stf, hr, hrep⟩ := h4
  refine ⟨?_, h1⟩
  rw [hrep]
  have : (bs, stf) = ([⟨1, GENESIS_HASH, [], 0, none, 0, none, some "H"⟩], []) := by
    have := hr.symm.trans (show rebuildBlocks shaH serTC sigOkAll deriveAddrC
      parseNone workerNone []
      [⟨0, "0", 0, none, 0, [], some GENESIS_HASH⟩,
       ⟨1, GENESIS_HASH, 0, none, 0, [], some "H"⟩].tail
      = some ([⟨1, GENESIS_HASH, [], 0, none, 0, none, some "H"⟩], []) by decide)
    exact Option.some.inj this
  rw [show bs = [⟨1, GENESIS_HASH, [], 0, none, 0, none, some "H"⟩] from
    congrArg Prod.fst this, show stf = [] from congrArg Prod.snd this]

/-!
## Claim C6 — proof-of-work mining
-/

theorem replicate_zero_isPrefixOf_iff (k : Nat) (l : List Char) :
    (List.replicate k '0').isPrefixOf l = true ↔
      k ≤ (l.takeWhile (· = '0')).length := by
  induction k generalizing l with
  | zero => simp
  | succ k ih =>
    cases l with
    | nil => simp [List.replicate_succ]
    | cons c l' =>
      rw [List.replicate_succ]
      by_cases hc : c = '0'
      · subst hc
        rw [List.isPrefixOf_cons₂_self]
        simp only [List.takeWhile_cons, decide_True, if_true]
        simpa [Nat.succ_le_succ_iff] using ih l'
      · rw [List.isPrefixOf_cons₂]
        simp [List.takeWhile_cons, hc, Ne.symm hc]

/-- Meeting the target: `strStarts h ("0" * d)` is exactly "`h` has at least `d` leading zero hex
characters". -/
theorem strStarts_zeroRun_iff (d : Int) (h : String) :
    strStarts h (zeroRun d) = true ↔ d.toNat ≤ leadingZeroHex h := by
  simpa [strStarts, zeroRun, leadingZeroHex, String.toList] using
    replicate_zero_isPrefixOf_iff d.toNat h.toList

theorem mineFrom_some_inv (sha : String → String) (serHeader : Header → String)
    (hd : Header) (difficulty : Int) (maxN : Nat) (tA : Nat → Bool)
    (cA : Nat → String → Bool) :
    ∀ n m h, mineFrom sha serHeader hd difficulty maxN tA cA n = some (m, h) →
      n ≤ m ∧ m < maxN ∧
      h = calculateHash sha serHeader { hd with nonce := (m : Int) } ∧
      strStarts h (zeroRun difficulty) = true ∧
      ∀ j, n ≤ j → j < m →
        strStarts (calculateHash sha serHeader { hd with nonce := (j : Int) })
          (zeroRun difficulty) = false := by
  have main : ∀ k n m h, maxN - n ≤ k →
      mineFrom sha serHeader hd difficulty maxN tA cA n = some (m, h) →
      n ≤ m ∧ m < maxN ∧
      h = calculateHash sha serHeader { hd with nonce := (m : Int) } ∧
      strStarts h (zeroRun difficulty) = true ∧
      ∀ j, n ≤ j → j < m →
        strStarts (calculateHash sha serHeader { hd with nonce := (j : Int) })
          (zeroRun difficulty) = false := by
    intro k
    induction k with
    | zero =>
      intro n m h hk hm
      rw [mineFrom, if_pos (by omega)] at hm
      exact absurd hm (by simp)
    | succ k ih =>
      intro n m h hk hm
      rw [mineFrom] at hm
      by_cases h1 : maxN ≤ n
      · rw [if_pos h1] at hm
        exact absurd hm (by simp)
      · rw [if_neg h1] at hm
        by_cases h2 : tA n = true
        · rw [if_pos h2] at hm
          exact absurd hm (by simp)
        · rw [if_neg h2] at hm
          dsimp only at hm
          by_cases h3 : strStarts (calculateHash sha serHeader
              { hd with nonce := (n : Int) }) (zeroRun difficulty) = true
          · rw [if_pos h3] at hm
            injection hm with hm'
            injection hm' with hm1 hm2
            subst hm1
            subst hm2
            exact ⟨le_refl n, by omega, rfl, h3, fun j hj1 hj2 => by omega⟩
          · rw [if_neg h3] at hm
            by_cases h4 : cA n (calculateHash sha serHeader
                { hd with nonce := (n : Int) }) = true
            · rw [if_pos h4] at hm
              exact absurd hm (by simp)
            · rw [if_neg h4] at hm
              obtain ⟨ha, hb, hc, hdd, he⟩ := ih (n + 1) m h (by omega) hm
              refine ⟨by omega, hb, hc, hdd, ?_⟩
              intro j hj1 hj2
              rcases Nat.eq_or_lt_of_le hj1 with hj | hj
              · subst hj
                simpa using h3
              · exact he j (by omega) hj2
  exact fun n m h hm => main (maxN + 1) n m h (by omega) hm

theorem mineFrom_none_of_all_fail (sha : String → String)
    (serHeader : Header → String) (hd : Header) (difficulty : Int)
    (maxN : Nat) (tA : Nat → Bool) (cA : Nat → String → Bool) :
    ∀ n, (∀ m, n ≤ m → m < maxN →
      strStarts (calculateHash sha serHeader { hd with nonce := (m : Int) })
        (zeroRun difficulty) = false) →
      mineFrom sha serHeader hd difficulty maxN tA cA n = none := by
  have main : ∀ k n, maxN - n ≤ k →
      (∀ m, n ≤ m → m < maxN →
        strStarts (calculateHash sha serHeader { hd with nonce := (m : Int) })
          (zeroRun difficulty) = false) →
      mineFrom sha serHeader hd difficulty maxN tA cA n = none := by
    intro k
    induction k with
    | zero =>
      intro n hk _
      rw [mineFrom, if_pos (by omega)]
    | succ k ih =>
      intro n hk hall
      rw [mineFrom]
      by_cases h1 : maxN ≤ n
      · rw [if_pos h1]
      · rw [if_neg h1]
        by_cases h2 : tA n = true
        · rw [if_pos h2]
        · rw [if_neg h2]
          dsimp only
          rw [if_neg (by simp [hall n (le_refl n) (by omega)])]
          by_cases h4 : cA n (calculateHash sha serHeader
              { hd with nonce := (n : Int) }) = true
          · rw [if_pos h4]
          · rw [if_neg h4]
            exact ih (n + 1) (by omega) (fun m hm1 hm2 => hall m (by omega) hm2)
  exact fun n hall => main (maxN + 1) n (by omega) hall

/-- C6: with a positive difficulty, `mine_block` either succeeds — returning
the caller's block with `nonce` set to the smallest candidate whose header
hash has at least `difficulty` leading zero hex characters and `hash` set to
that header hash — or raises the distinguished mining-exceeded condition
with the caller's block (nonce and hash included) exactly unchanged; the
attempt cap, an immediate timeout, and an immediate cancellation each
produce that exceeded condition. -/
theorem mine_block_spec (sha : String → String) (serHeader : Header → String)
    (b : Block) (difficulty : Int) (maxN : Nat) (tA : Nat → Bool)
    (cA : Nat → String → Bool) (hpos : 0 < difficulty) :
    (∀ out b', mineBlock sha serHeader b difficulty maxN tA cA = (out, b') →
      (out = .success →
        ∃ n : Nat,
          b' = { b with nonce := (n : Int), hash := some (calculateHash sha
            serHeader { b.header with nonce := (n : Int) }) } ∧
          difficulty.toNat ≤ leadingZeroHex (calculateHash sha serHeader
            { b.header with nonce := (n : Int) }) ∧
          ∀ j < n, strStarts (calculateHash sha serHeader
            { b.header with nonce := (j : Int) }) (zeroRun difficulty) = false) ∧
      (out ≠ .success → out = .exceeded ∧ b' = b)) ∧
    ((∀ m < maxN, strStarts (calculateHash sha serHeader
        { b.header with nonce := (m : Int) }) (zeroRun difficulty) = false) →
      mineBlock sha serHeader b difficulty maxN tA cA = (.exceeded, b)) ∧
    (tA 0 = true →
      mineBlock sha serHeader b difficulty maxN tA cA = (.exceeded, b)) ∧
    (0 < maxN → tA 0 = false →
      strStarts (calculateHash sha serHeader
        { b.header with nonce := ((0 : Nat) : Int) }) (zeroRun difficulty) = false →
      cA 0 (calculateHash sha serHeader
        { b.header with nonce := ((0 : Nat) : Int) }) = true →
      mineBlock sha serHeader b difficulty maxN tA cA = (.exceeded, b)) := by
  have hnneg : ¬ difficulty ≤ 0 := by omega
  refine ⟨?_, ?_, ?_, ?_⟩
  · intro out b' hm
    rw [mineBlock, if_neg hnneg] at hm
    cases hmf : mineFrom sha serHeader b.header difficulty maxN tA cA 0 with
    | some p =>
      obtain ⟨n, h⟩ := p
      rw [hmf] at hm
      injection hm with hm1 hm2
      obtain ⟨-, -, hh, hmeets, hmin⟩ := mineFrom_some_inv sha serHeader
        b.header difficulty maxN tA cA 0 n h hmf
      constructor
      · intro _
        refine ⟨n, ?_, ?_, ?_⟩
        · rw [← hm2, hh]
        · exact (strStarts_zeroRun_iff difficulty _).mp (hh ▸ hmeets)
        · exact fun j hj => hmin j (Nat.zero_le j) hj
      · intro hne
        exact absurd hm1.symm hne
    | none =>
      rw [hmf] at hm
      injection hm with hm1 hm2
      exact ⟨fun hs => absurd (hm1.trans hs) (by simp),
        fun _ => ⟨hm1.symm, hm2.symm⟩⟩
  · intro hall
    rw [mineBlock, if_neg hnneg,
      mineFrom_none_of_all_fail sha serHeader b.header difficulty maxN tA cA 0
        (fun m _ hm2 => hall m hm2)]
  · intro ht
    rw [mineBlock, if_neg hnneg]
    by_cases h0 : maxN ≤ 0
    · rw [mineFrom, if_pos h0]
    · rw [mineFrom, if_neg h0, if_pos ht]
  · intro hmax ht hfail hcancel
    dsimp only at hfail hcancel
    simp only [Nat.cast_zero] at hfail hcancel
    rw [mineBlock, if_neg hnneg, mineFrom, if_neg (by omega), if_neg (by simp [ht])]
    dsimp only
    simp only [Nat.cast_zero]
    rw [if_neg (by simp [hfail]), if_pos hcancel]

/-- Identity hash oracle for the mining witness. -/
def shaId : String → String := fun s => s

/-- Header serializer whose hash meets difficulty 1 first at nonce 2. -/
def serHMine : Header → String := fun hd => if hd.nonce = 2 then "0ab" else "xyz"

/-- The block being mined in the witness. -/
def bMine : Block := ⟨1, "p", [], 0, some 1, 0, none, none⟩

/-- No timeout is ever observed. -/
def noTimeout : Nat → Bool := fun _ => false

/-- Cancellation is never signalled. -/
def noCancel : Nat → String → Bool := fun _ _ => false

/-- Timeout observed immediately. -/
def allTimeout : Nat → Bool := fun _ => true

theorem mine_block_spec_witness :
    mineBlock shaId serHMine bMine 1 3 allTimeout noCancel
      = (.exceeded, bMine) ∧
    mineBlock shaId serHMine bMine 1 3 noTimeout noCancel
      = (.success, { bMine with nonce := 2, hash := some "0ab" }) := by
  have hstep2 : mineFrom shaId serHMine bMine.header 1 3 noTimeout noCancel 2
      = some (2, "0ab") := by
    rw [mineFrom]
    norm_num [calculateHash, serHMine, shaId, strTruthy, noTimeout,
      strStarts, zeroRun, bMine]
  have hstep1 : mineFrom shaId serHMine bMine.header 1 3 noTimeout noCancel 1
      = some (2, "0ab") := by
    rw [mineFrom]
    norm_num [calculateHash, serHMine, shaId, noTimeout, noCancel,
      strStarts, zeroRun, bMine]
    exact hstep2
  have hstep0 : mineFrom shaId serHMine bMine.header 1 3 noTimeout noCancel 0
      = some (2, "0ab") := by
    rw [mineFrom]
    norm_num [calculateHash, serHMine, shaId, noTimeout, noCancel,
      strStarts, zeroRun, bMine]
    exact hstep1
  refine ⟨(mine_block_spec shaId serHMine bMine 1 3 allTimeout noCancel
    (by norm_num)).2.2.1 rfl, ?_⟩
  rw [mineBlock, if_neg (by norm_num), hstep0]
  norm_num [calculateHash, serHMine, shaId, bMine]
